import Mathlib

/-!
Verification of `src/mupdf.py` (pdf2img): a shallow embedding of
`process_page` and `pdf_to_jpeg` together with the Python string and
path helpers they use (`str.lower`, `os.path.basename`,
`os.path.splitext`, `os.path.join`, decimal formatting of integers in
f-strings, `base64.b64encode`).

External libraries (PyMuPDF rendering, PIL encoding) are modelled as an
abstract `Env` of deterministic functions; the script's own logic
(format dispatch, output-path construction, the page loop, the
open/close discipline) is embedded faithfully.
-/

namespace Pdf2Img

/-! ### Python string helpers -/

/-- ASCII lowering of one character, as `str.lower` acts on the ASCII
range (the only range relevant to the format strings compared here). -/
def asciiLowerChar (c : Char) : Char :=
  if 'A' ≤ c ∧ c ≤ 'Z' then Char.ofNat (c.toNat + 32) else c

/-- Model of Python `s.lower()` on the strings this program compares. -/
def asciiLower (s : String) : String :=
  ⟨s.data.map asciiLowerChar⟩

/-- Characters of the last `/`-separated component of a path. -/
def basenameAux : List Char → List Char → List Char
  | [], acc => acc.reverse
  | c :: rest, acc =>
    if c = '/' then basenameAux rest [] else basenameAux rest (c :: acc)

/-- Model of Python `os.path.basename` (POSIX). -/
def basename (s : String) : String :=
  ⟨basenameAux s.data []⟩

/-- Index of the last occurrence of a character in a list, if any. -/
def rfindPos (c : Char) : List Char → Option Nat
  | [] => none
  | x :: xs =>
    match rfindPos c xs with
    | some i => some (i + 1)
    | none => if x = c then some 0 else none

/-- Model of CPython `posixpath.splitext`: split at the last dot that
comes after the last slash, provided some non-dot character stands
between that slash and that dot. -/
def splitext (s : String) : String × String :=
  let cs := s.data
  let sepIndex : Int :=
    match rfindPos '/' cs with
    | some i => (i : Int)
    | none => -1
  match rfindPos '.' cs with
  | none => (s, "")
  | some d =>
    if sepIndex < (d : Int) then
      if (List.range' (sepIndex + 1).toNat (d - (sepIndex + 1).toNat)).any
          (fun i => cs.getD i ' ' ≠ '.') then
        (⟨cs.take d⟩, ⟨cs.drop d⟩)
      else (s, "")
    else (s, "")

/-- Model of CPython `posixpath.join` for two components. -/
def pathJoin (a b : String) : String :=
  if b.data.head? = some '/' then b
  else if a = "" ∨ a.data.getLast? = some '/' then a ++ b
  else a ++ "/" ++ b

/-! ### Decimal formatting of naturals (Python f-string `{n}`) -/

/-- The decimal digit characters. -/
def decDigitChar : Nat → Char
  | 0 => '0' | 1 => '1' | 2 => '2' | 3 => '3' | 4 => '4'
  | 5 => '5' | 6 => '6' | 7 => '7' | 8 => '8' | 9 => '9'
  | _ => '*'

/-- Fuel-driven digit accumulation, least-significant digit first into
the accumulator. -/
def natDecCore : Nat → Nat → List Char → List Char
  | 0, _, acc => acc
  | f + 1, n, acc =>
    if n < 10 then decDigitChar n :: acc
    else natDecCore f (n / 10) (decDigitChar (n % 10) :: acc)

/-- Decimal string of a natural number, as Python renders `{n}`. -/
def natDec (n : Nat) : String :=
  ⟨natDecCore (n + 1) n []⟩

/-- Numeric value of a decimal digit character. -/
def decCharVal : Char → Nat
  | '0' => 0 | '1' => 1 | '2' => 2 | '3' => 3 | '4' => 4
  | '5' => 5 | '6' => 6 | '7' => 7 | '8' => 8 | '9' => 9
  | _ => 0

/-- Value of a decimal digit string. -/
def decVal (cs : List Char) : Nat :=
  cs.foldl (fun a c => a * 10 + decCharVal c) 0

/-! ### Base64 (Python `base64.b64encode` / `b64decode`)

Bytes are naturals below 256; the encoder output is the list of ASCII
codes of the base64 text, `61` being the ASCII code of the pad `=`. -/

/-- The RFC 4648 base64 alphabet. -/
def b64Alphabet : String :=
  "ABCDEFGHIJKLMNOPQRSTUVWXYZabcdefghijklmnopqrstuvwxyz0123456789+/"

/-- ASCII codes of the base64 alphabet, by 6-bit value. -/
def b64Table : List Nat :=
  b64Alphabet.data.map Char.toNat

/-- ASCII code of the base64 character for a 6-bit value. -/
def b64chr (n : Nat) : Nat :=
  b64Table.getD n 0

/-- 6-bit value of a base64 character given by ASCII code. -/
def b64ord (c : Nat) : Nat :=
  b64Table.indexOf c

/-- Model of `base64.b64encode` on a list of bytes. -/
def b64encode : List Nat → List Nat
  | a :: b :: c :: rest =>
    b64chr (a / 4) :: b64chr (a % 4 * 16 + b / 16) ::
      b64chr (b % 16 * 4 + c / 64) :: b64chr (c % 64) :: b64encode rest
  | [a, b] => [b64chr (a / 4), b64chr (a % 4 * 16 + b / 16), b64chr (b % 16 * 4), 61]
  | [a] => [b64chr (a / 4), b64chr (a % 4 * 16), 61, 61]
  | [] => []

/-- Model of `base64.b64decode` on well-padded base64 text. -/
def b64decode : List Nat → List Nat
  | w :: x :: y :: z :: rest =>
    if y = 61 then [b64ord w * 4 + b64ord x / 16]
    else if z = 61 then
      [b64ord w * 4 + b64ord x / 16, b64ord x % 16 * 16 + b64ord y / 4]
    else
      (b64ord w * 4 + b64ord x / 16) :: (b64ord x % 16 * 16 + b64ord y / 4) ::
        (b64ord y % 4 * 64 + b64ord z) :: b64decode rest
  | _ => []

/-! ### External libraries as an abstract environment -/

/-- An RGB raster buffer as produced by `page.get_pixmap` and consumed
by `Image.frombytes` (width, height, flat sample bytes). -/
structure RasterImage where
  width : Nat
  height : Nat
  samples : List Nat
  deriving DecidableEq, Repr

/-- The deterministic behavior of the external libraries the script
delegates to: PyMuPDF page rasterization and page-count probing, and
the PIL encoders used by `img.save`.  Arguments mirror the save calls:
WEBP takes (quality, method), JPEG (quality, optimize), PNG (optimize,
compress level). -/
structure Env where
  render : String → Nat → Nat → RasterImage
  encodeWEBP : RasterImage → Nat → Nat → List Nat
  encodeJPEG : RasterImage → Nat → Bool → List Nat
  encodePNG : RasterImage → Bool → Nat → List Nat
  pageCount : String → Nat

/-- One file written to disk: destination path and content bytes. -/
structure FileWrite where
  path : String
  content : List Nat
  deriving DecidableEq, Repr

/-! ### `process_page` (success path, lines 11-66) -/

/-- Line 32-33: `output_image = os.path.join(output_dir,
f"{file_name}_{page_num + 1}.{img_format}")` with `file_name` the
stem of `os.path.basename(pdf_path)`. -/
def outputImagePath (pdf_path output_dir : String) (page_num : Nat)
    (img_format : String) : String :=
  pathJoin output_dir
    ((splitext (basename pdf_path)).1 ++ "_" ++ natDec (page_num + 1) ++ "." ++ img_format)

/-- The format dispatch of lines 35-58: the list of file writes the
chosen branch performs (each branch writes exactly one file). -/
def formatDispatch (env : Env) (img : RasterImage) (output_image : String)
    (img_format : String) (quality : Nat) : List FileWrite :=
  if asciiLower img_format = "webp" then
    [⟨output_image, env.encodeWEBP img quality 0⟩]
  else if asciiLower img_format = "jpeg" ∨ asciiLower img_format = "jpg" then
    [⟨output_image, env.encodeJPEG img quality false⟩]
  else if asciiLower img_format = "png" then
    [⟨output_image, env.encodePNG img false 1⟩]
  else if asciiLower img_format = "base64" then
    [⟨(splitext output_image).1 ++ ".b64",
      b64encode (env.encodeWEBP img quality 0)⟩]
  else
    [⟨output_image, env.encodeWEBP img quality 0⟩]

/-- `process_page` on its success path: the file writes it performs and
its returned page number (the returned wall-clock duration is not
modelled). -/
def processPage (env : Env) (pdf_path : String) (page_num : Nat)
    (output_dir : String) (dpi : Nat) (img_format : String) (quality : Nat) :
    List FileWrite × Nat :=
  let img := env.render pdf_path page_num dpi
  let output_image := outputImagePath pdf_path output_dir page_num img_format
  (formatDispatch env img output_image img_format quality, page_num)

/-! ### `process_page` with error paths (lines 21-61)

`process_page` opens the document at line 21 and calls `doc.close()`
only at line 61, after the load / rasterize / convert / save steps,
with no `try`/`finally` around them.  The oracle says which library
call, if any, raises; the trace records the handle and file events that
actually happen before the exception propagates. -/

/-- Which library call inside `process_page` raises, if any:
`doc.load_page` (line 22), `page.get_pixmap` (line 23), or the
`img.save` / file write of the chosen branch (lines 35-58). -/
structure PageOracle where
  loadRaises : Bool
  pixmapRaises : Bool
  saveRaises : Bool
  deriving DecidableEq, Repr

/-- Observable resource and file events of one `process_page` call. -/
inductive Ev where
  | openDoc (path : String)
  | closeDoc
  | fileWrite (w : FileWrite)
  deriving DecidableEq, Repr

/-- `process_page` as a trace: the events performed, and `some page_num`
on normal return or `none` when an exception propagates.  The
straight-line structure mirrors lines 21-66: `closeDoc` is only reached
when every earlier step succeeded. -/
def processPageRun (o : PageOracle) (env : Env) (pdf_path : String)
    (page_num : Nat) (output_dir : String) (dpi : Nat) (img_format : String)
    (quality : Nat) : List Ev × Option Nat :=
  let opened := [Ev.openDoc pdf_path]
  if o.loadRaises then (opened, none)
  else if o.pixmapRaises then (opened, none)
  else if o.saveRaises then (opened, none)
  else
    let ws := (processPage env pdf_path page_num output_dir dpi img_format quality).1
    (opened ++ ws.map Ev.fileWrite ++ [Ev.closeDoc], some page_num)

/-! ### `pdf_to_jpeg` (lines 69-116) -/

/-- The arguments of one `executor.submit(process_page, ...)` call at
line 100. -/
structure TaskArgs where
  pdf_path : String
  page_num : Nat
  output_dir : String
  dpi : Nat
  img_format : String
  quality : Nat
  deriving DecidableEq, Repr

/-- Line 100: the tasks submitted in parallel mode, one per index of
`range(page_count)`, in submission order. -/
def parallelSubmits (env : Env) (pdf_path output_dir : String) (dpi : Nat)
    (img_format : String) (quality : Nat) : List TaskArgs :=
  (List.range (env.pageCount pdf_path)).map
    (fun i => ⟨pdf_path, i, output_dir, dpi, img_format, quality⟩)

/-- Observable events of the sequential loop: a task's file write,
tagged with its 0-based page, and the per-page log line of line 110
(which displays `page + 1`). -/
inductive SeqEv where
  | writeEv (page : Nat) (w : FileWrite)
  | logEv (page : Nat)
  deriving DecidableEq, Repr

/-- The 0-based page an event belongs to. -/
def SeqEv.page : SeqEv → Nat
  | .writeEv p _ => p
  | .logEv p => p

/-- Lines 108-110: sequential mode runs `process_page` for each index of
`range(page_count)` in order in the calling process, logging after each
page; the trace lists each page's writes followed by its log line. -/
def seqTrace (env : Env) (pdf_path output_dir : String) (dpi : Nat)
    (img_format : String) (quality : Nat) : List SeqEv :=
  (List.range (env.pageCount pdf_path)).flatMap
    (fun i =>
      ((processPage env pdf_path i output_dir dpi img_format quality).1.map
        (SeqEv.writeEv i)) ++ [SeqEv.logEv i])

/-- The file writes of one whole run (the same per-page writes are
performed in both modes; only their interleaving differs). -/
def runWrites (env : Env) (pdf_path output_dir : String) (dpi : Nat)
    (img_format : String) (quality : Nat) : List FileWrite :=
  (List.range (env.pageCount pdf_path)).flatMap
    (fun i => (processPage env pdf_path i output_dir dpi img_format quality).1)

/-- Oracle for the driver prelude: whether `os.path.exists(output_dir)`
holds at line 83, and whether `fitz.open(pdf_path)` at line 87 raises
(unreadable or invalid PDF). -/
structure DriverOracle where
  dirExists : Bool
  openRaises : Bool
  deriving DecidableEq, Repr

/-- Filesystem-visible events of the driver prelude. -/
inductive DEv where
  | mkdirEv (dir : String)
  | openEv (path : String)
  | closeEv
  deriving DecidableEq, Repr

/-- Lines 82-89 of `pdf_to_jpeg`: create the output directory when
absent, then open the PDF to probe the page count and close it; `false`
means the open raised and the exception propagates. -/
def driverPrelude (o : DriverOracle) (pdf_path output_dir : String) :
    List DEv × Bool :=
  let t := if o.dirExists then [] else [DEv.mkdirEv output_dir]
  if o.openRaises then (t, false)
  else (t ++ [DEv.openEv pdf_path, DEv.closeEv], true)

/-! ### Filesystem state -/

/-- A filesystem as a map from path to file content. -/
def FS : Type := String → Option (List Nat)

/-- Writing one file (creating or overwriting). -/
def applyWrite (fs : FS) (w : FileWrite) : FS :=
  fun p => if p = w.path then some w.content else fs p

/-- Performing a list of writes in order. -/
def applyWrites (ws : List FileWrite) (fs : FS) : FS :=
  ws.foldl applyWrite fs

/-! ### A concrete sample environment (for witnesses) -/

/-- A tiny deterministic environment: a 1x1 image whose sample encodes
the page index, and toy codecs returning small byte lists. -/
def sampleEnv : Env where
  render := fun _ i _ => ⟨1, 1, [i % 256, 0, 0]⟩
  encodeWEBP := fun img q _ => 82 :: 73 :: 70 :: 70 :: q % 256 :: img.samples.take 3
  encodeJPEG := fun img q _ => 255 :: 216 :: q % 256 :: img.samples.take 3
  encodePNG := fun img _ lvl => 137 :: 80 :: 78 :: 71 :: lvl % 256 :: img.samples.take 3
  pageCount := fun _ => 3

/-- The characters `pathJoin a b` places before `b` when `b` does not
start with a slash. -/
def joinPre (a : String) : List Char :=
  if a = "" ∨ a.data.getLast? = some '/' then a.data else a.data ++ ['/']

/-- The single destination path a `process_page` call writes for a
given page and format: the `.b64` re-extension for the base64 branch,
the verbatim `output_image` for every other branch. -/
def pagePath (pdf_path output_dir : String) (page_num : Nat)
    (img_format : String) : String :=
  if asciiLower img_format = "base64" then
    (splitext (outputImagePath pdf_path output_dir page_num img_format)).1 ++ ".b64"
  else outputImagePath pdf_path output_dir page_num img_format

/-- The content of the last write to `p` in `ws`, if any. -/
def lastContent (ws : List FileWrite) (p : String) : Option (List Nat) :=
  ws.foldl (fun acc w => if p = w.path then some w.content else acc) none

/-- The write events of a trace, with their page tags, in trace order. -/
def seqWriteEvents (t : List SeqEv) : List (Nat × FileWrite) :=
  t.filterMap (fun e =>
    match e with
    | .writeEv pg w => some (pg, w)
    | .logEv _ => none)

/-- The log events of a trace, in trace order. -/
def seqLogEvents (t : List SeqEv) : List Nat :=
  t.filterMap (fun e =>
    match e with
    | .writeEv _ _ => none
    | .logEv pg => some pg)

/-! ### Open/close counting on traces -/

/-- Number of `openDoc` events in a trace. -/
def openCount (t : List Ev) : Nat :=
  (t.filter (fun e =>
    match e with
    | Ev.openDoc _ => true
    | _ => false)).length

/-- Number of `closeDoc` events in a trace. -/
def closeCount (t : List Ev) : Nat :=
  (t.filter (fun e =>
    match e with
    | Ev.closeDoc => true
    | _ => false)).length

/-- A sample environment whose PDFs are empty (0 pages). -/
def emptyEnv : Env :=
  { sampleEnv with pageCount := fun _ => 0 }

/-! ### Lemmas: decimal formatting -/

theorem natDecCore_append (f : Nat) : ∀ n acc,
    natDecCore f n acc = natDecCore f n [] ++ acc := by
  induction f with
  | zero => intro n acc; simp [natDecCore]
  | succ f ih =>
    intro n acc
    by_cases h : n < 10
    · simp [natDecCore, h]
    · simp only [natDecCore, if_neg h]
      rw [ih (n / 10) (decDigitChar (n % 10) :: acc),
        ih (n / 10) [decDigitChar (n % 10)]]
      simp

theorem natDecCore_fuel (f : Nat) : ∀ g n acc, n < 10 ^ (f + 1) → n < 10 ^ (g + 1) →
    natDecCore (f + 1) n acc = natDecCore (g + 1) n acc := by
  induction f with
  | zero =>
    intro g n acc hf _
    have h10 : n < 10 := by simpa using hf
    simp [natDecCore, h10]
  | succ f ih =>
    intro g n acc hf hg
    by_cases h : n < 10
    · simp [natDecCore, h]
    · match g with
      | 0 =>
        have : n < 10 := by simpa using hg
        omega
      | g + 1 =>
        simp only [natDecCore, if_neg h]
        apply ih
        · have hx : n < 10 ^ (f + 1) * 10 := by
            rw [← pow_succ]; exact hf
          omega
        · have hx : n < 10 ^ (g + 1) * 10 := by
            rw [← pow_succ]; exact hg
          omega

theorem natDecCore_succ (f n : Nat) (acc : List Char) :
    natDecCore (f + 1) n acc =
      if n < 10 then decDigitChar n :: acc
      else natDecCore f (n / 10) (decDigitChar (n % 10) :: acc) := rfl

theorem natDec_data_lt (n : Nat) (h : n < 10) :
    (natDec n).data = [decDigitChar n] := by
  show natDecCore (n + 1) n [] = [decDigitChar n]
  rw [natDecCore_succ, if_pos h]

theorem natDec_data_ge (n : Nat) (h : 10 ≤ n) :
    (natDec n).data = (natDec (n / 10)).data ++ [decDigitChar (n % 10)] := by
  have h1 : ¬ n < 10 := by omega
  show natDecCore (n + 1) n [] =
    natDecCore (n / 10 + 1) (n / 10) [] ++ [decDigitChar (n % 10)]
  rw [natDecCore_succ, if_neg h1, natDecCore_append]
  congr 1
  obtain ⟨m, rfl⟩ : ∃ m, n = m + 1 := ⟨n - 1, by omega⟩
  apply natDecCore_fuel
  · have h2 := Nat.lt_pow_self (a := 10) (by norm_num) (m + 1)
    have h3 : (m + 1) / 10 ≤ m + 1 := Nat.div_le_self _ _
    omega
  · exact (Nat.lt_pow_self (by norm_num) _).trans_le
      (Nat.pow_le_pow_right (by norm_num) (Nat.le_succ _))

theorem decCharVal_decDigitChar : ∀ d, d < 10 → decCharVal (decDigitChar d) = d := by
  decide

theorem decVal_append_digit (xs : List Char) (c : Char) :
    decVal (xs ++ [c]) = decVal xs * 10 + decCharVal c := by
  simp [decVal, List.foldl_append]

theorem decVal_natDec (n : Nat) : decVal (natDec n).data = n := by
  induction n using Nat.strong_induction_on with
  | _ n ih =>
    by_cases h : n < 10
    · rw [natDec_data_lt n h]
      simp [decVal, decCharVal_decDigitChar n h]
    · rw [natDec_data_ge n (by omega), decVal_append_digit,
        ih (n / 10) (by omega), decCharVal_decDigitChar _ (by omega)]
      omega

theorem natDec_injective {m n : Nat} (h : natDec m = natDec n) : m = n := by
  have h2 := congrArg (fun s => decVal s.data) h
  simpa [decVal_natDec] using h2

theorem natDecCore_digits (f : Nat) : ∀ n acc,
    (∀ c ∈ acc, ∃ d, d < 10 ∧ c = decDigitChar d) →
    ∀ c ∈ natDecCore f n acc, ∃ d, d < 10 ∧ c = decDigitChar d := by
  induction f with
  | zero => intro n acc hacc; simpa [natDecCore] using hacc
  | succ f ih =>
    intro n acc hacc c hc
    by_cases h : n < 10
    · simp only [natDecCore, if_pos h] at hc
      rcases List.mem_cons.mp hc with rfl | hc2
      · exact ⟨n, h, rfl⟩
      · exact hacc c hc2
    · simp only [natDecCore, if_neg h] at hc
      refine ih (n / 10) _ ?_ c hc
      intro c2 hc2
      rcases List.mem_cons.mp hc2 with rfl | hc3
      · exact ⟨n % 10, by omega, rfl⟩
      · exact hacc c2 hc3

theorem natDec_digits (n : Nat) :
    ∀ c ∈ (natDec n).data, ∃ d, d < 10 ∧ c = decDigitChar d :=
  natDecCore_digits (n + 1) n [] (by simp)

theorem natDecCore_ne_nil (f : Nat) : ∀ n acc, acc ≠ [] → natDecCore f n acc ≠ [] := by
  induction f with
  | zero => intro n acc h; simpa [natDecCore]
  | succ f ih =>
    intro n acc h
    by_cases h10 : n < 10
    · simp [natDecCore, h10]
    · simp only [natDecCore, if_neg h10]
      exact ih _ _ (by simp)

theorem natDec_ne_nil (n : Nat) : (natDec n).data ≠ [] := by
  show natDecCore (n + 1) n [] ≠ []
  by_cases h10 : n < 10
  · simp [natDecCore, h10]
  · simp only [natDecCore, if_neg h10]
    exact natDecCore_ne_nil _ _ _ (by simp)

theorem decDigitChar_ne_dot_slash : ∀ d, d < 10 →
    decDigitChar d ≠ '.' ∧ decDigitChar d ≠ '/' := by
  decide

theorem natDec_no_dot_slash (n : Nat) :
    ∀ c ∈ (natDec n).data, c ≠ '.' ∧ c ≠ '/' := by
  intro c hc
  obtain ⟨d, hd, rfl⟩ := natDec_digits n c hc
  exact decDigitChar_ne_dot_slash d hd

/-! ### Lemmas: string literals as character lists -/

theorem underscore_data : ("_" : String).data = ['_'] := rfl

theorem slashStr_data : ("/" : String).data = ['/'] := rfl

theorem dotStr_data : ("." : String).data = ['.'] := rfl

theorem b64ext_data : (".b64" : String).data = ['.', 'b', '6', '4'] := rfl

theorem mk_data (l : List Char) : (String.mk l).data = l := rfl

/-! ### Lemmas: `rfindPos` -/

theorem rfindPos_cons (c x : Char) (l : List Char) :
    rfindPos c (x :: l) =
      match rfindPos c l with
      | some i => some (i + 1)
      | none => if x = c then some 0 else none := rfl

theorem rfindPos_append (c : Char) (xs ys : List Char) :
    rfindPos c (xs ++ ys) =
      match rfindPos c ys with
      | some i => some (xs.length + i)
      | none => rfindPos c xs := by
  induction xs with
  | nil =>
    cases h : rfindPos c ys with
    | none => simp [h, rfindPos]
    | some i => simp [h]
  | cons x xs ih =>
    rw [List.cons_append, rfindPos_cons, ih, rfindPos_cons]
    cases h : rfindPos c ys with
    | none => cases h2 : rfindPos c xs <;> simp
    | some i => simp [List.length_cons]; omega

theorem rfindPos_lt_length {c : Char} :
    ∀ {l : List Char} {i : Nat}, rfindPos c l = some i → i < l.length := by
  intro l
  induction l with
  | nil => intro i h; simp [rfindPos] at h
  | cons x xs ih =>
    intro i h
    rw [rfindPos_cons] at h
    cases hx : rfindPos c xs with
    | some j =>
      rw [hx] at h
      simp only [Option.some.injEq] at h
      have := ih hx
      simp only [List.length_cons]
      omega
    | none =>
      rw [hx] at h
      by_cases hxc : x = c
      · rw [if_pos hxc] at h
        simp only [Option.some.injEq] at h
        simp [List.length_cons]
        omega
      · rw [if_neg hxc] at h
        exact absurd h (by simp)

theorem rfindPos_getD {c : Char} :
    ∀ {l : List Char} {i : Nat}, rfindPos c l = some i → l.getD i ' ' = c := by
  intro l
  induction l with
  | nil => intro i h; simp [rfindPos] at h
  | cons x xs ih =>
    intro i h
    rw [rfindPos_cons] at h
    cases hx : rfindPos c xs with
    | some j =>
      rw [hx] at h
      simp only [Option.some.injEq] at h
      subst h
      simpa using ih hx
    | none =>
      rw [hx] at h
      by_cases hxc : x = c
      · rw [if_pos hxc] at h
        simp only [Option.some.injEq] at h
        subst hxc
        subst h
        rfl
      · rw [if_neg hxc] at h
        exact absurd h (by simp)

theorem rfindPos_eq_none {c : Char} {l : List Char} :
    rfindPos c l = none ↔ c ∉ l := by
  induction l with
  | nil => simp [rfindPos]
  | cons x xs ih =>
    rw [rfindPos_cons]
    cases hx : rfindPos c xs with
    | some j =>
      have hmem : c ∈ xs := by
        by_contra hc
        rw [ih.mpr hc] at hx
        exact Option.noConfusion hx
      simp [List.mem_cons, hmem]
    | none =>
      have hnotmem := ih.mp hx
      by_cases hxc : x = c
      · subst hxc
        simp
      · simp only [if_neg hxc]
        constructor
        · intro _ h
          rcases List.mem_cons.mp h with h1 | h1
          · exact hxc h1.symm
          · exact hnotmem h1
        · intro _
          trivial

/-! ### Lemmas: `splitext` -/

theorem splitext_append_ext (A E : List Char) (c : Char)
    (hc1 : c ≠ '.') (hc2 : c ≠ '/') (hE1 : '.' ∉ E) (hE2 : '/' ∉ E) :
    splitext ⟨A ++ c :: '.' :: E⟩ = (⟨A ++ [c]⟩, ⟨'.' :: E⟩) := by
  have hsplit : A ++ c :: '.' :: E = (A ++ [c]) ++ '.' :: E := by simp
  have hlen : (A ++ [c]).length = A.length + 1 := by simp
  have hdot : rfindPos '.' (A ++ c :: '.' :: E) = some (A.length + 1) := by
    rw [hsplit, rfindPos_append, rfindPos_cons, rfindPos_eq_none.mpr hE1]
    simp [hlen]
  have hsl : rfindPos '/' (A ++ c :: '.' :: E) = rfindPos '/' (A ++ [c]) := by
    rw [hsplit, rfindPos_append, rfindPos_cons, rfindPos_eq_none.mpr hE2]
    simp
  have hgetc : (A ++ c :: '.' :: E).getD A.length ' ' = c := by
    rw [List.getD_append_right A _ ' ' A.length (le_refl _)]
    simp
  have htake : (A ++ c :: '.' :: E).take (A.length + 1) = A ++ [c] := by
    rw [hsplit, ← hlen, List.take_left]
  have hdrop : (A ++ c :: '.' :: E).drop (A.length + 1) = '.' :: E := by
    rw [hsplit, ← hlen, List.drop_left]
  simp only [splitext, mk_data, hdot, hsl]
  cases hsep : rfindPos '/' (A ++ [c]) with
  | none =>
    simp only []
    rw [if_pos (by omega)]
    rw [if_pos ?cond]
    case cond =>
      simp only [List.any_eq_true, List.mem_range'_1, decide_eq_true_eq]
      refine ⟨A.length, ⟨by omega, by omega⟩, ?_⟩
      rw [hgetc]
      exact hc1
    rw [htake, hdrop]
  | some j =>
    have hj : j < A.length + 1 := hlen ▸ rfindPos_lt_length hsep
    have hgj : (A ++ [c]).getD j ' ' = '/' := rfindPos_getD hsep
    have hjne : j ≠ A.length := by
      intro h
      subst h
      rw [List.getD_append_right A _ ' ' A.length (le_refl _)] at hgj
      simp at hgj
      exact hc2 hgj
    have hjlt : j < A.length := by omega
    simp only []
    rw [if_pos (by
      simp only [Int.lt_iff_add_one_le]
      omega)]
    rw [if_pos ?cond2]
    case cond2 =>
      simp only [List.any_eq_true, List.mem_range'_1, decide_eq_true_eq]
      refine ⟨A.length, ⟨by omega, by omega⟩, ?_⟩
      rw [hgetc]
      exact hc1
    rw [htake, hdrop]

/-- The stem `splitext` returns is either the whole string or an
initial segment of it. -/
theorem splitext_fst_no_slash {s : String} (h : '/' ∉ s.data) :
    '/' ∉ (splitext s).1.data := by
  simp only [splitext]
  split
  · exact h
  · split
    · split
      · intro hmem
        exact h (List.take_subset _ _ hmem)
      · exact h
    · exact h

/-! ### Lemmas: `basename` -/

theorem basenameAux_no_slash : ∀ (cs acc : List Char),
    '/' ∉ acc → '/' ∉ basenameAux cs acc := by
  intro cs
  induction cs with
  | nil =>
    intro acc hacc
    simpa [basenameAux] using hacc
  | cons x xs ih =>
    intro acc hacc
    by_cases hx : x = '/'
    · simp only [basenameAux, if_pos hx]
      exact ih [] (by simp)
    · simp only [basenameAux, if_neg hx]
      refine ih (x :: acc) ?_
      intro hmem
      rcases List.mem_cons.mp hmem with h1 | h1
      · exact hx h1.symm
      · exact hacc h1

theorem basename_no_slash (s : String) : '/' ∉ (basename s).data :=
  basenameAux_no_slash _ _ (by simp)

/-- The pdf stem used in output names contains no slash. -/
theorem stem_no_slash (s : String) : '/' ∉ (splitext (basename s)).1.data :=
  splitext_fst_no_slash (basename_no_slash s)

/-! ### Lemmas: `pathJoin` -/


theorem pathJoin_data {a b : String} (hb : b.data.head? ≠ some '/') :
    (pathJoin a b).data = joinPre a ++ b.data := by
  unfold pathJoin joinPre
  rw [if_neg hb]
  split
  · rw [String.data_append]
  · rw [String.data_append, String.data_append, slashStr_data]

theorem pathJoin_inj (a : String) {b1 b2 : String}
    (h1 : b1.data.head? ≠ some '/') (h2 : b2.data.head? ≠ some '/')
    (h : pathJoin a b1 = pathJoin a b2) : b1 = b2 := by
  have hd := congrArg String.data h
  rw [pathJoin_data h1, pathJoin_data h2] at hd
  exact String.ext (List.append_cancel_left hd)

/-! ### Lemmas: `asciiLower` and format strings -/

theorem asciiLower_mem {fmt t : String} (h : asciiLower fmt = t) {c : Char}
    (hc : c ∈ fmt.data) : asciiLowerChar c ∈ t.data := by
  subst h
  exact List.mem_map_of_mem asciiLowerChar hc

theorem base64_fmt_no_dot {fmt : String} (h : asciiLower fmt = "base64") :
    '.' ∉ fmt.data := by
  intro hmem
  exact absurd (asciiLower_mem h hmem) (by decide)

theorem base64_fmt_no_slash {fmt : String} (h : asciiLower fmt = "base64") :
    '/' ∉ fmt.data := by
  intro hmem
  exact absurd (asciiLower_mem h hmem) (by decide)

/-! ### Lemmas: the output path of one page -/


theorem processPage_paths (env : Env) (p : String) (i : Nat) (d : String)
    (dpi : Nat) (fmt : String) (q : Nat) :
    ((processPage env p i d dpi fmt q).1).map FileWrite.path = [pagePath p d i fmt] := by
  show (formatDispatch env (env.render p i dpi) (outputImagePath p d i fmt)
    fmt q).map FileWrite.path = [pagePath p d i fmt]
  unfold formatDispatch pagePath
  split_ifs with h1 h2 h3 h4 h5 <;> simp_all

theorem head?_append_underscore {s : String} (hs : '/' ∉ s.data) (l : List Char) :
    (s.data ++ '_' :: l).head? ≠ some '/' := by
  cases hsd : s.data with
  | nil => simp
  | cons c cs =>
    simp only [List.cons_append, List.head?_cons]
    intro hc
    rw [Option.some.injEq] at hc
    subst hc
    refine hs ?_
    rw [hsd]
    exact List.mem_cons_self _ _

theorem fmtBody_data (stem t u : String) :
    (stem ++ "_" ++ t ++ "." ++ u).data =
      stem.data ++ '_' :: (t.data ++ '.' :: u.data) := by
  simp [String.data_append, underscore_data, dotStr_data]

theorem b64Body_data (stem t : String) :
    (stem ++ "_" ++ t ++ ".b64").data =
      stem.data ++ '_' :: (t.data ++ '.' :: ['b', '6', '4']) := by
  simp [String.data_append, underscore_data, b64ext_data]

/-- Replacing a trailing `"." ++ u` by any literal whose characters are
`'.' :: u.data`. -/
theorem append_ext_eq (stem t u v : String) (huv : v.data = '.' :: u.data) :
    stem ++ "_" ++ t ++ "." ++ u = stem ++ "_" ++ t ++ v := by
  apply String.ext
  simp [String.data_append, underscore_data, dotStr_data, huv]

/-- For the base64 branch, the `splitext`-based re-extension of lines
49 computes to the straightforward `_<n>.b64` path. -/
theorem pagePath_base64 (p d : String) (i : Nat) {fmt : String}
    (h : asciiLower fmt = "base64") :
    pagePath p d i fmt =
      pathJoin d ((splitext (basename p)).1 ++ "_" ++ natDec (i + 1) ++ ".b64") := by
  unfold pagePath
  rw [if_pos h]
  have hnum_ne : (natDec (i + 1)).data ≠ [] := natDec_ne_nil (i + 1)
  obtain ⟨ds, lastc, hds⟩ : ∃ ds lastc, (natDec (i + 1)).data = ds ++ [lastc] :=
    ⟨(natDec (i + 1)).data.dropLast, (natDec (i + 1)).data.getLast hnum_ne,
      (List.dropLast_append_getLast hnum_ne).symm⟩
  have hlast := natDec_no_dot_slash (i + 1) lastc
    (by rw [hds]; exact List.mem_append_right ds (List.mem_cons_self _ _))
  have hstem_sl : '/' ∉ ((splitext (basename p)).1).data := stem_no_slash p
  have hhead1 :
      ((splitext (basename p)).1 ++ "_" ++ natDec (i + 1) ++ "." ++ fmt).data.head?
        ≠ some '/' := by
    rw [fmtBody_data]
    exact head?_append_underscore hstem_sl _
  have hhead2 :
      ((splitext (basename p)).1 ++ "_" ++ natDec (i + 1) ++ ".b64").data.head?
        ≠ some '/' := by
    rw [b64Body_data]
    exact head?_append_underscore hstem_sl _
  have hObj : outputImagePath p d i fmt =
      ⟨(joinPre d ++ ((splitext (basename p)).1).data ++ '_' :: ds) ++
        lastc :: '.' :: fmt.data⟩ := by
    apply String.ext
    show (outputImagePath p d i fmt).data = _
    unfold outputImagePath
    rw [pathJoin_data hhead1, fmtBody_data, hds, mk_data]
    simp
  rw [hObj,
    splitext_append_ext _ fmt.data lastc hlast.1 hlast.2
      (base64_fmt_no_dot h) (base64_fmt_no_slash h)]
  apply String.ext
  rw [String.data_append, mk_data, b64ext_data, pathJoin_data hhead2,
    b64Body_data, hds]
  simp

/-- For every non-base64 branch the written path is the `output_image`
itself, so its extension is the caller's format string; replacing a
literal extension computes the path in closed form. -/
theorem pagePath_plain (p d : String) (i : Nat) (u v : String)
    (hne : asciiLower u ≠ "base64") (huv : v.data = '.' :: u.data) :
    pagePath p d i u
      = pathJoin d ((splitext (basename p)).1 ++ "_" ++ natDec (i + 1) ++ v) := by
  unfold pagePath
  rw [if_neg hne]
  unfold outputImagePath
  rw [append_ext_eq _ _ _ _ huv]

/-! ### Lemmas: base64 round-trip -/

theorem b64ord_b64chr : ∀ n, n < 64 → b64ord (b64chr n) = n := by decide

theorem b64chr_ne_61 : ∀ n, n < 64 → b64chr n ≠ 61 := by decide

theorem b64_roundtrip (bs : List Nat) (h : ∀ x ∈ bs, x < 256) :
    b64decode (b64encode bs) = bs := by
  induction bs using b64encode.induct with
  | case1 a b c rest ih =>
    have ha : a < 256 := h a (by simp)
    have hb : b < 256 := h b (by simp)
    have hc : c < 256 := h c (by simp)
    have h1 : a / 4 < 64 := by omega
    have h2 : a % 4 * 16 + b / 16 < 64 := by omega
    have h3 : b % 16 * 4 + c / 64 < 64 := by omega
    have h4 : c % 64 < 64 := by omega
    rw [show b64encode (a :: b :: c :: rest) =
      b64chr (a / 4) :: b64chr (a % 4 * 16 + b / 16) ::
        b64chr (b % 16 * 4 + c / 64) :: b64chr (c % 64) :: b64encode rest from rfl]
    rw [b64decode, if_neg (b64chr_ne_61 _ h3), if_neg (b64chr_ne_61 _ h4)]
    rw [b64ord_b64chr _ h1, b64ord_b64chr _ h2, b64ord_b64chr _ h3,
      b64ord_b64chr _ h4]
    rw [ih (fun x hx => h x (by simp [hx]))]
    simp only [List.cons.injEq]
    exact ⟨by omega, by omega, by omega, trivial⟩
  | case2 a b =>
    have ha : a < 256 := h a (by simp)
    have hb : b < 256 := h b (by simp)
    have h1 : a / 4 < 64 := by omega
    have h2 : a % 4 * 16 + b / 16 < 64 := by omega
    have h3 : b % 16 * 4 < 64 := by omega
    rw [show b64encode [a, b] =
      [b64chr (a / 4), b64chr (a % 4 * 16 + b / 16), b64chr (b % 16 * 4), 61]
      from rfl]
    rw [b64decode, if_neg (b64chr_ne_61 _ h3), if_pos rfl]
    rw [b64ord_b64chr _ h1, b64ord_b64chr _ h2, b64ord_b64chr _ h3]
    simp only [List.cons.injEq]
    exact ⟨by omega, by omega, trivial⟩
  | case3 a =>
    have ha : a < 256 := h a (by simp)
    have h1 : a / 4 < 64 := by omega
    have h2 : a % 4 * 16 < 64 := by omega
    rw [show b64encode [a] = [b64chr (a / 4), b64chr (a % 4 * 16), 61, 61] from rfl]
    rw [b64decode, if_pos rfl]
    rw [b64ord_b64chr _ h1, b64ord_b64chr _ h2]
    simp only [List.cons.injEq]
    exact ⟨by omega, trivial⟩
  | case4 => rfl

/-! ### Lemmas: filesystem writes -/


theorem lastContent_foldl (p : String) : ∀ (ws : List FileWrite) (o : Option (List Nat)),
    ws.foldl (fun acc w => if p = w.path then some w.content else acc) o
      = (lastContent ws p).elim o some := by
  intro ws
  induction ws with
  | nil => intro o; rfl
  | cons w ws ih =>
    intro o
    show ws.foldl _ (if p = w.path then some w.content else o) = _
    rw [ih]
    have hc : lastContent (w :: ws) p
        = (lastContent ws p).elim (if p = w.path then some w.content else none) some := by
      show ws.foldl _ (if p = w.path then some w.content else none) = _
      rw [ih]
    rw [hc]
    cases lastContent ws p with
    | some c2 => rfl
    | none =>
      by_cases hp : p = w.path
      · simp [hp]
      · simp [hp]

theorem applyWrites_apply (ws : List FileWrite) (fs : FS) (p : String) :
    applyWrites ws fs p = (lastContent ws p).elim (fs p) some := by
  induction ws generalizing fs with
  | nil => rfl
  | cons w ws ih =>
    show applyWrites ws (applyWrite fs w) p = _
    rw [ih]
    have hc : lastContent (w :: ws) p
        = (lastContent ws p).elim (if p = w.path then some w.content else none) some := by
      show ws.foldl _ _ = _
      rw [lastContent_foldl]
    rw [hc]
    cases lastContent ws p with
    | some c2 => rfl
    | none =>
      show applyWrite fs w p = _
      unfold applyWrite
      by_cases hp : p = w.path
      · simp [hp]
      · simp [hp]

theorem applyWrites_idem (ws : List FileWrite) (fs : FS) :
    applyWrites ws (applyWrites ws fs) = applyWrites ws fs := by
  funext p
  rw [applyWrites_apply, applyWrites_apply]
  cases lastContent ws p with
  | some c => rfl
  | none => rfl

/-! ### Lemmas: driver ordering and write lists -/

theorem processPage_singleton (env : Env) (p : String) (i : Nat) (d : String)
    (dpi : Nat) (fmt : String) (q : Nat) :
    ∃ w, (processPage env p i d dpi fmt q).1 = [w] ∧ w.path = pagePath p d i fmt := by
  have h := processPage_paths env p i d dpi fmt q
  cases hws : (processPage env p i d dpi fmt q).1 with
  | nil => rw [hws] at h; exact absurd h (by simp)
  | cons w ws2 =>
    cases ws2 with
    | nil =>
      rw [hws] at h
      simp only [List.map_cons, List.map_nil, List.cons.injEq] at h
      exact ⟨w, rfl, h.1⟩
    | cons w2 ws3 => rw [hws] at h; exact absurd h (by simp)

theorem mem_flatMap_pair {n x : Nat}
    (h : x ∈ (List.range n).flatMap (fun i => [i, i])) : x < n := by
  rw [List.mem_flatMap] at h
  obtain ⟨i, hi, hx⟩ := h
  rw [List.mem_range] at hi
  simp at hx
  omega

theorem pages_pairwise_le (n : Nat) :
    ((List.range n).flatMap (fun i => [i, i])).Pairwise (· ≤ ·) := by
  induction n with
  | zero => simp
  | succ n ih =>
    rw [List.range_succ, List.flatMap_append, List.pairwise_append]
    refine ⟨ih, by simp, ?_⟩
    intro a ha b hb
    have ha2 := mem_flatMap_pair ha
    simp at hb
    omega

theorem seqTrace_pages (env : Env) (p d : String) (dpi : Nat) (fmt : String) (q : Nat) :
    (seqTrace env p d dpi fmt q).map SeqEv.page
      = (List.range (env.pageCount p)).flatMap (fun i => [i, i]) := by
  unfold seqTrace
  rw [List.map_flatMap]
  congr 1
  funext i
  obtain ⟨w, hw, _⟩ := processPage_singleton env p i d dpi fmt q
  rw [hw]
  rfl


theorem seqWriteEvents_append (t1 t2 : List SeqEv) :
    seqWriteEvents (t1 ++ t2) = seqWriteEvents t1 ++ seqWriteEvents t2 := by
  simp [seqWriteEvents]

theorem seqLogEvents_append (t1 t2 : List SeqEv) :
    seqLogEvents (t1 ++ t2) = seqLogEvents t1 ++ seqLogEvents t2 := by
  simp [seqLogEvents]

theorem seqTrace_writePages (env : Env) (p d : String) (dpi : Nat) (fmt : String) (q : Nat) :
    (seqWriteEvents (seqTrace env p d dpi fmt q)).map Prod.fst
      = List.range (env.pageCount p) := by
  unfold seqTrace
  generalize List.range (env.pageCount p) = l
  induction l with
  | nil => rfl
  | cons i l ih =>
    obtain ⟨w, hw, _⟩ := processPage_singleton env p i d dpi fmt q
    rw [List.flatMap_cons, hw, seqWriteEvents_append, List.map_append, ih]
    rfl

theorem seqTrace_logPages (env : Env) (p d : String) (dpi : Nat) (fmt : String) (q : Nat) :
    seqLogEvents (seqTrace env p d dpi fmt q) = List.range (env.pageCount p) := by
  unfold seqTrace
  generalize List.range (env.pageCount p) = l
  induction l with
  | nil => rfl
  | cons i l ih =>
    obtain ⟨w, hw, _⟩ := processPage_singleton env p i d dpi fmt q
    rw [List.flatMap_cons, hw, seqLogEvents_append, ih]
    rfl

theorem parallelSubmits_pages (env : Env) (p d : String) (dpi : Nat)
    (fmt : String) (q : Nat) :
    (parallelSubmits env p d dpi fmt q).map TaskArgs.page_num
      = List.range (env.pageCount p) := by
  unfold parallelSubmits
  rw [List.map_map]
  show List.map (fun i => i) (List.range (env.pageCount p)) = _
  exact List.map_id _

theorem runWrites_paths (env : Env) (p d : String) (dpi : Nat) (fmt : String) (q : Nat) :
    (runWrites env p d dpi fmt q).map FileWrite.path
      = (List.range (env.pageCount p)).map (fun i => pagePath p d i fmt) := by
  unfold runWrites
  rw [List.map_flatMap]
  have hfun : (fun a => List.map FileWrite.path (processPage env p a d dpi fmt q).1)
      = fun a => [pagePath p d a fmt] :=
    funext fun a => processPage_paths env p a d dpi fmt q
  rw [hfun]
  exact (List.map_eq_flatMap _ _).symm

theorem pagePath_inj (p d : String) (fmt : String) {i j : Nat}
    (h : pagePath p d i fmt = pagePath p d j fmt) : i = j := by
  by_cases hb : asciiLower fmt = "base64"
  · rw [pagePath_base64 p d i hb, pagePath_base64 p d j hb] at h
    have h2 := pathJoin_inj d
      (by rw [b64Body_data]; exact head?_append_underscore (stem_no_slash p) _)
      (by rw [b64Body_data]; exact head?_append_underscore (stem_no_slash p) _) h
    have h3 := congrArg String.data h2
    rw [b64Body_data, b64Body_data] at h3
    have h4 := List.append_cancel_left h3
    rw [List.cons.injEq] at h4
    have h5 := List.append_cancel_right h4.2
    have h6 := natDec_injective (String.ext h5)
    omega
  · unfold pagePath at h
    rw [if_neg hb, if_neg hb] at h
    unfold outputImagePath at h
    have h2 := pathJoin_inj d
      (by rw [fmtBody_data]; exact head?_append_underscore (stem_no_slash p) _)
      (by rw [fmtBody_data]; exact head?_append_underscore (stem_no_slash p) _) h
    have h3 := congrArg String.data h2
    rw [fmtBody_data, fmtBody_data] at h3
    have h4 := List.append_cancel_left h3
    rw [List.cons.injEq] at h4
    have h5 := List.append_cancel_right h4.2
    have h6 := natDec_injective (String.ext h5)
    omega

theorem runWrites_paths_nodup (env : Env) (p d : String) (dpi : Nat)
    (fmt : String) (q : Nat) :
    ((runWrites env p d dpi fmt q).map FileWrite.path).Nodup := by
  rw [runWrites_paths]
  exact List.Nodup.map_on
    (fun i _ j _ h => pagePath_inj p d fmt h)
    (List.nodup_range _)


theorem closeCount_map_fileWrite (ws : List FileWrite) :
    closeCount (ws.map Ev.fileWrite) = 0 := by
  induction ws with
  | nil => rfl
  | cons w ws ih =>
    simp [closeCount, List.filter]

theorem openCount_map_fileWrite (ws : List FileWrite) :
    openCount (ws.map Ev.fileWrite) = 0 := by
  induction ws with
  | nil => rfl
  | cons w ws ih =>
    simp [openCount, List.filter]

/-! ## Claims -/

/-- C1 (counterexample): the claim says the document handle is closed
before any error propagates; but when `doc.load_page` raises, the call
errors out with the handle opened and never closed — `doc.close()` at
line 61 is only reached on the success path. -/
theorem c1_close_on_error_counterexample :
    (processPageRun ⟨true, false, false⟩ sampleEnv "doc.pdf" 0 "out" 300 "webp" 80).2 = none
    ∧ Ev.closeDoc ∉
        (processPageRun ⟨true, false, false⟩ sampleEnv "doc.pdf" 0 "out" 300 "webp" 80).1
    ∧ Ev.openDoc "doc.pdf" ∈
        (processPageRun ⟨true, false, false⟩ sampleEnv "doc.pdf" 0 "out" 300 "webp" 80).1 := by
  refine ⟨rfl, by decide, by decide⟩

/-- C1 (amended): `process_page` opens the handle exactly once, and
closes it exactly once on the success path; but on an exit path where
loading, rasterizing, or the encode/write raises, the error propagates
with the handle never closed. -/
theorem c1_close_discipline (o : PageOracle) (env : Env) (p : String) (i : Nat)
    (d : String) (dpi : Nat) (fmt : String) (q : Nat) :
    openCount (processPageRun o env p i d dpi fmt q).1 = 1
    ∧ closeCount (processPageRun o env p i d dpi fmt q).1
        = (if (processPageRun o env p i d dpi fmt q).2 = none then 0 else 1) := by
  obtain ⟨lo, pix, sav⟩ := o
  cases lo <;> cases pix <;> cases sav <;>
    simp [processPageRun, openCount, closeCount, List.filter_append,
      closeCount_map_fileWrite, openCount_map_fileWrite, List.filter]

/-- C2 (counterexample): the claim says an unrecognized format falls
back to a binary file with extension `.webp`; in fact the fallback
branch writes the WEBP bytes to a file carrying the caller's
unrecognized extension (line 33 interpolates `img_format` verbatim). -/
theorem c2_fallback_counterexample :
    (processPage sampleEnv "doc.pdf" 0 "out" 300 "tiff" 80).1
      = [⟨"out/doc_1.tiff",
          sampleEnv.encodeWEBP (sampleEnv.render "doc.pdf" 0 300) 80 0⟩]
    ∧ ("out/doc_1.tiff" : String) ≠ "out/doc_1.webp" := by
  refine ⟨by decide, by decide⟩

/-- C2 (amended): a format recognized by none of the five comparisons
does not fail: it is encoded as WEBP at the given quality with the
fastest method (method 0), but written to a file whose extension is the
caller's original format string, not `.webp`. -/
theorem c2_fallback_webp (env : Env) (p : String) (i : Nat) (d : String)
    (dpi : Nat) (fmt : String) (q : Nat)
    (h1 : asciiLower fmt ≠ "webp") (h2 : asciiLower fmt ≠ "jpeg")
    (h3 : asciiLower fmt ≠ "jpg") (h4 : asciiLower fmt ≠ "png")
    (h5 : asciiLower fmt ≠ "base64") :
    (processPage env p i d dpi fmt q).1
      = [⟨pathJoin d ((splitext (basename p)).1 ++ "_" ++ natDec (i + 1) ++ "." ++ fmt),
          env.encodeWEBP (env.render p i dpi) q 0⟩] := by
  show formatDispatch env (env.render p i dpi) (outputImagePath p d i fmt) fmt q = _
  unfold formatDispatch
  rw [if_neg h1, if_neg (by
      intro hor
      rcases hor with h | h
      · exact h2 h
      · exact h3 h),
    if_neg h4, if_neg h5]
  rfl

/-- C2 witness at format "tiff". -/
theorem c2_fallback_webp_witness :
    asciiLower "tiff" ≠ "webp" ∧ asciiLower "tiff" ≠ "jpeg"
    ∧ asciiLower "tiff" ≠ "jpg" ∧ asciiLower "tiff" ≠ "png"
    ∧ asciiLower "tiff" ≠ "base64"
    ∧ (processPage sampleEnv "doc.pdf" 0 "out" 300 "tiff" 80).1
      = [⟨pathJoin "out"
            ((splitext (basename "doc.pdf")).1 ++ "_" ++ natDec (0 + 1) ++ "." ++ "tiff"),
          sampleEnv.encodeWEBP (sampleEnv.render "doc.pdf" 0 300) 80 0⟩] :=
  ⟨by decide, by decide, by decide, by decide, by decide,
    c2_fallback_webp sampleEnv "doc.pdf" 0 "out" 300 "tiff" 80
      (by decide) (by decide) (by decide) (by decide) (by decide)⟩

/-- C3: for every valid page index and each supported format,
`process_page` writes exactly one file, at
`output_dir/<stem>_<i+1>.<ext>` with 1-based numbering, `.webp` for
webp, the caller's jpeg/jpg spelling for JPEG, `.png` for png, and
`.b64` (not the image extension) for base64. -/
theorem c3_output_path (env : Env) (p : String) (i : Nat) (d : String)
    (dpi q : Nat) (hi : i < env.pageCount p) :
    ((processPage env p i d dpi "webp" q).1.map FileWrite.path
        = [pathJoin d ((splitext (basename p)).1 ++ "_" ++ natDec (i + 1) ++ ".webp")])
    ∧ ((processPage env p i d dpi "jpeg" q).1.map FileWrite.path
        = [pathJoin d ((splitext (basename p)).1 ++ "_" ++ natDec (i + 1) ++ ".jpeg")])
    ∧ ((processPage env p i d dpi "jpg" q).1.map FileWrite.path
        = [pathJoin d ((splitext (basename p)).1 ++ "_" ++ natDec (i + 1) ++ ".jpg")])
    ∧ ((processPage env p i d dpi "png" q).1.map FileWrite.path
        = [pathJoin d ((splitext (basename p)).1 ++ "_" ++ natDec (i + 1) ++ ".png")])
    ∧ ((processPage env p i d dpi "base64" q).1.map FileWrite.path
        = [pathJoin d ((splitext (basename p)).1 ++ "_" ++ natDec (i + 1) ++ ".b64")]) := by
  refine ⟨?_, ?_, ?_, ?_, ?_⟩
  · rw [processPage_paths, pagePath_plain p d i "webp" ".webp" (by decide) rfl]
  · rw [processPage_paths, pagePath_plain p d i "jpeg" ".jpeg" (by decide) rfl]
  · rw [processPage_paths, pagePath_plain p d i "jpg" ".jpg" (by decide) rfl]
  · rw [processPage_paths, pagePath_plain p d i "png" ".png" (by decide) rfl]
  · rw [processPage_paths, pagePath_base64 p d i (by decide)]

/-- C3 witness on a 3-page sample environment, page 0. -/
theorem c3_output_path_witness :
    0 < sampleEnv.pageCount "doc.pdf"
    ∧ ((processPage sampleEnv "doc.pdf" 0 "out" 300 "webp" 80).1.map FileWrite.path
        = [pathJoin "out"
            ((splitext (basename "doc.pdf")).1 ++ "_" ++ natDec (0 + 1) ++ ".webp")]) :=
  ⟨by decide, (c3_output_path sampleEnv "doc.pdf" 0 "out" 300 80 (by decide)).1⟩

/-- C4: in sequential mode the per-page tasks run one at a time in
ascending page order: every observable event (file write, log line) is
tagged with a page that never decreases along the trace, the file
writes hit pages `0, 1, ..., n-1` in exactly that order, and so do the
per-page log lines. -/
theorem c4_sequential_order (env : Env) (p d : String) (dpi : Nat)
    (fmt : String) (q : Nat) :
    ((seqTrace env p d dpi fmt q).map SeqEv.page).Pairwise (· ≤ ·)
    ∧ (seqWriteEvents (seqTrace env p d dpi fmt q)).map Prod.fst
        = List.range (env.pageCount p)
    ∧ seqLogEvents (seqTrace env p d dpi fmt q) = List.range (env.pageCount p) := by
  refine ⟨?_, seqTrace_writePages env p d dpi fmt q, seqTrace_logPages env p d dpi fmt q⟩
  rw [seqTrace_pages]
  exact pages_pairwise_le _

/-- C5: an empty PDF (page count 0) produces no per-page events and no
file writes in sequential mode, and no task submissions in parallel
mode; the run performs nothing that could fail. -/
theorem c5_empty_pdf (env : Env) (p d : String) (dpi : Nat) (fmt : String)
    (q : Nat) (h : env.pageCount p = 0) :
    seqTrace env p d dpi fmt q = []
    ∧ parallelSubmits env p d dpi fmt q = []
    ∧ runWrites env p d dpi fmt q = [] := by
  unfold seqTrace parallelSubmits runWrites
  rw [h]
  exact ⟨rfl, rfl, rfl⟩

/-- C5 witness on an environment whose PDFs are empty. -/
theorem c5_empty_pdf_witness :
    emptyEnv.pageCount "doc.pdf" = 0
    ∧ seqTrace emptyEnv "doc.pdf" "out" 300 "webp" 80 = []
    ∧ parallelSubmits emptyEnv "doc.pdf" "out" 300 "webp" 80 = []
    ∧ runWrites emptyEnv "doc.pdf" "out" 300 "webp" 80 = [] := by
  have h := c5_empty_pdf emptyEnv "doc.pdf" "out" 300 "webp" 80 rfl
  exact ⟨rfl, h.1, h.2.1, h.2.2⟩

/-- C6: the page indices handed to `process_page` are exactly
`0, ..., page_count - 1`: in parallel mode the submitted tasks carry
exactly those indices (each exactly once — `range` is duplicate-free),
and in sequential mode the per-page writes hit exactly those indices,
so no out-of-range index ever reaches `doc.load_page`. -/
theorem c6_page_indices (env : Env) (p d : String) (dpi : Nat)
    (fmt : String) (q : Nat) :
    (parallelSubmits env p d dpi fmt q).map TaskArgs.page_num
        = List.range (env.pageCount p)
    ∧ (seqWriteEvents (seqTrace env p d dpi fmt q)).map Prod.fst
        = List.range (env.pageCount p)
    ∧ (∀ i, i ∈ (parallelSubmits env p d dpi fmt q).map TaskArgs.page_num
        ↔ i < env.pageCount p)
    ∧ ((parallelSubmits env p d dpi fmt q).map TaskArgs.page_num).Nodup := by
  refine ⟨parallelSubmits_pages env p d dpi fmt q,
    seqTrace_writePages env p d dpi fmt q, ?_, ?_⟩
  · intro i
    rw [parallelSubmits_pages]
    exact List.mem_range
  · rw [parallelSubmits_pages]
    exact List.nodup_range _

/-- C7: the base64 branch writes exactly the base64 encoding of the
WEBP bytes the webp branch would produce at the same quality and
method, and decoding the written text recovers those WEBP bytes. -/
theorem c7_base64_roundtrip (env : Env) (p : String) (i : Nat) (d : String)
    (dpi q : Nat)
    (hbytes : ∀ x ∈ env.encodeWEBP (env.render p i dpi) q 0, x < 256) :
    ((processPage env p i d dpi "base64" q).1.map FileWrite.content
        = [b64encode (env.encodeWEBP (env.render p i dpi) q 0)])
    ∧ ((processPage env p i d dpi "webp" q).1.map FileWrite.content
        = [env.encodeWEBP (env.render p i dpi) q 0])
    ∧ b64decode (b64encode (env.encodeWEBP (env.render p i dpi) q 0))
        = env.encodeWEBP (env.render p i dpi) q 0 :=
  ⟨rfl, rfl, b64_roundtrip _ hbytes⟩

/-- C7 witness on the sample environment. -/
theorem c7_base64_roundtrip_witness :
    (∀ x ∈ sampleEnv.encodeWEBP (sampleEnv.render "doc.pdf" 0 300) 80 0, x < 256)
    ∧ b64decode (b64encode (sampleEnv.encodeWEBP (sampleEnv.render "doc.pdf" 0 300) 80 0))
        = sampleEnv.encodeWEBP (sampleEnv.render "doc.pdf" 0 300) 80 0 :=
  ⟨by decide,
    (c7_base64_roundtrip sampleEnv "doc.pdf" 0 "out" 300 80 (by decide)).2.2⟩

/-- C8: a run's file writes are idempotent on the filesystem — applying
them a second time leaves the filesystem exactly as after the first
application — and the written paths are pairwise distinct (no
duplicate names, hence no accumulation on a rerun). -/
theorem c8_idempotent (env : Env) (p d : String) (dpi : Nat) (fmt : String)
    (q : Nat) (fs : FS) :
    applyWrites (runWrites env p d dpi fmt q)
        (applyWrites (runWrites env p d dpi fmt q) fs)
      = applyWrites (runWrites env p d dpi fmt q) fs
    ∧ ((runWrites env p d dpi fmt q).map FileWrite.path).Nodup :=
  ⟨applyWrites_idem _ _, runWrites_paths_nodup env p d dpi fmt q⟩

/-- C9: format dispatch lowercases the format before each comparison
(so any casing with lowercase "png" selects the PNG branch), while for
every non-base64 format the written file keeps the caller's original
spelling of the format string as its extension. -/
theorem c9_case_insensitive (env : Env) (p : String) (i : Nat) (d : String)
    (dpi : Nat) (fmt : String) (q : Nat) :
    (asciiLower fmt = "png" →
      (processPage env p i d dpi fmt q).1
        = [⟨pathJoin d ((splitext (basename p)).1 ++ "_" ++ natDec (i + 1) ++ "." ++ fmt),
            env.encodePNG (env.render p i dpi) false 1⟩])
    ∧ (asciiLower fmt ≠ "base64" →
      (processPage env p i d dpi fmt q).1.map FileWrite.path
        = [pathJoin d ((splitext (basename p)).1 ++ "_" ++ natDec (i + 1) ++ "." ++ fmt)]) := by
  constructor
  · intro hpng
    show formatDispatch env (env.render p i dpi) (outputImagePath p d i fmt) fmt q = _
    unfold formatDispatch
    rw [hpng]
    rfl
  · intro hnb
    rw [processPage_paths]
    unfold pagePath
    rw [if_neg hnb]
    rfl

/-- C9 witness at format "PNG". -/
theorem c9_case_insensitive_witness :
    asciiLower "PNG" = "png"
    ∧ (processPage sampleEnv "doc.pdf" 0 "out" 300 "PNG" 80).1
      = [⟨pathJoin "out"
            ((splitext (basename "doc.pdf")).1 ++ "_" ++ natDec (0 + 1) ++ "." ++ "PNG"),
          sampleEnv.encodePNG (sampleEnv.render "doc.pdf" 0 300) false 1⟩] :=
  ⟨by decide,
    (c9_case_insensitive sampleEnv "doc.pdf" 0 "out" 300 "PNG" 80).1 (by decide)⟩

/-- C10: the driver creates the output directory (when absent) before
opening the PDF: if the open then raises, the run fails with the
directory already created — the filesystem is not left unchanged — and
on success the mkdir strictly precedes the open. -/
theorem c10_mkdir_before_open (p d : String) :
    driverPrelude ⟨false, true⟩ p d = ([DEv.mkdirEv d], false)
    ∧ driverPrelude ⟨false, false⟩ p d
        = ([DEv.mkdirEv d, DEv.openEv p, DEv.closeEv], true) :=
  ⟨rfl, rfl⟩

end Pdf2Img
